import Mathlib

/-!
Verification development for the Riva Choice image organizer
(`src/index.tsx`).  The definitions below are a shallow embedding of the
key extractor (`getSkuFromFilename`), the group store held in a JS `Map`
together with its mutation handlers, the `organizeImages` bucketing pass,
and the export-name derivation used by the download handlers.  Machine
strings are modelled as `String` / `List Char`; the nondeterministic
`crypto.randomUUID()` / `URL.createObjectURL` supplies are modelled as a
`Nat` counter threaded through the operations.
-/

set_option autoImplicit false

namespace RivaChoice

/-! ## Key extractor (src/index.tsx, lines 144-157)

`getSkuFromFilename` first searches the filename with the regex
`/(\d{6}-\d{5}-\d{3})/`; if no match, it strips the extension
(`filename.split('.').slice(0, -1).join('.').trim()`), strips one trailing
parenthesized suffix (`/\s*\([^)]*\)$/`), then repeatedly strips a trailing
`[-_]\d+` or lone trailing `[-_]` until unchanged or empty, falling back to
the extension-stripped name when the loop ends empty. -/

/-- The whitespace class trimmed by JS `String.prototype.trim` and matched
by `\s`, restricted to the ASCII whitespace characters that can occur in
the filenames we reason about. -/
def isJsWs (c : Char) : Bool :=
  c = ' ' ∨ c = '\t' ∨ c = '\n' ∨ c = '\r' ∨ c = '\x0b' ∨ c = '\x0c'

/-- JS `.trim()`: drop whitespace from both ends. -/
def trimChars (s : List Char) : List Char :=
  ((s.dropWhile isJsWs).reverse.dropWhile isJsWs).reverse

/-- Helper for `dropExt`, working on the reversed character list: drop
characters up to and including the first `'.'`; if there is none, the
result is empty. -/
def dropExtRev : List Char → List Char
  | [] => []
  | c :: rest => if c = '.' then rest else dropExtRev rest

/-- JS `filename.split('.').slice(0, -1).join('.')`: everything before the
last `'.'`, or the empty string when the name contains no `'.'`. -/
def dropExt (s : List Char) : List Char :=
  (dropExtRev s.reverse).reverse

/-- Does the whole suffix `s` match the regex `\s*\([^)]*\)$`?  That is:
optional whitespace, then `'('`, then characters none of which is `')'`,
then a final `')'` ending the string. -/
def parenMatch (s : List Char) : Bool :=
  match s.dropWhile isJsWs with
  | '(' :: rest =>
      rest.getLast? = some ')' && rest.dropLast.all (fun c => c ≠ ')')
  | _ => false

/-- `name.replace(/\s*\([^)]*\)$/, '')`: the regex engine scans start
positions left to right, so the replacement removes the suffix beginning at
the leftmost position whose entire suffix matches; the prefix before it is
kept. -/
def stripParen : List Char → List Char
  | [] => []
  | c :: rest => if parenMatch (c :: rest) then [] else c :: stripParen rest

/-- The separator class `[-_]`. -/
def isSep (c : Char) : Bool :=
  c = '-' ∨ c = '_'

/-- Does the whole suffix `s` match `[-_]\d+$|[-_]$`?  A separator followed
by only digits to the end of the string (zero digits covers the lone
trailing separator alternative). -/
def sepDigitsMatch : List Char → Bool
  | [] => false
  | c :: rest => isSep c && rest.all Char.isDigit

/-- `name.replace(/[-_]\d+$|[-_]$/, '')`: remove the match starting at the
leftmost position whose suffix is a separator followed only by digits. -/
def stripOnce : List Char → List Char
  | [] => []
  | c :: rest => if sepDigitsMatch (c :: rest) then [] else c :: stripOnce rest

/-- Fuel-indexed unfolding of the do/while loop
`do { previousName = name; name = name.replace(...); }
 while (name !== previousName && name.length > 0)`.
The loop exits (returning the current name) as soon as a pass leaves the
string unchanged or empty. -/
def stripLoopFuel : Nat → List Char → List Char
  | 0, name => name
  | fuel + 1, name =>
      let next := stripOnce name
      if next = name ∨ next = [] then next else stripLoopFuel fuel next

/-- The suffix-stripping loop.  `name.length` fuel suffices because every
pass that changes the string strictly shortens it (`stripOnce_shortens`). -/
def stripLoop (name : List Char) : List Char :=
  stripLoopFuel name.length name

/-- Does `s` match the anchored SKU pattern `\d{6}-\d{5}-\d{3}` exactly:
six digits, `'-'`, five digits, `'-'`, three digits (16 characters)? -/
def sku653 (s : List Char) : Bool :=
  s.length == 16 && (s.take 6).all Char.isDigit && s[6]? = some '-' &&
    ((s.drop 7).take 5).all Char.isDigit && s[12]? = some '-' &&
    (s.drop 13).all Char.isDigit

/-- `filename.match(/(\d{6}-\d{5}-\d{3})/)`: scan start positions left to
right; the first position whose next 16 characters have the 6-5-3 shape
yields the match. -/
def findSku : List Char → Option (List Char)
  | [] => none
  | c :: rest =>
      if sku653 ((c :: rest).take 16) then some ((c :: rest).take 16)
      else findSku rest

/-- Shallow embedding of `getSkuFromFilename` (src/index.tsx 144-157). -/
def getSkuFromFilename (filename : List Char) : List Char :=
  match findSku filename with
  | some m => m
  | none =>
      let base := trimChars (dropExt filename)
      let name := stripLoop (stripParen base)
      if name = [] then base else name

/-- The spec's `extractKey`: `getSkuFromFilename` on Lean strings. -/
def extractKey (filename : String) : String :=
  String.mk (getSkuFromFilename filename.data)

/-! ## Data model

A JS `File` carries a name and binary content; the content is modelled by
an opaque `Nat` tag (`blob`), sufficient to state payload identity.
An `OrganizedImage` (src/index.tsx 5-10) has a `crypto.randomUUID()` id, a
`File`, a `URL.createObjectURL` preview url (both modelled as `Nat` tags
drawn from a counter), and an optional per-image prefix.  The `prefix`
field of the source is a Lean keyword, so it is named `pfx` here. -/

structure ImgFile where
  name : String
  blob : Nat
  deriving DecidableEq, Repr

structure OrganizedImage where
  id : Nat
  file : ImgFile
  url : Nat
  pfx : Option String
  deriving DecidableEq, Repr

/-- The group store: a JS `Map<string, OrganizedImage[]>` modelled as an
insertion-ordered association list with (by construction) unique keys. -/
abbrev Store := List (String × List OrganizedImage)

/-! ### JS `Map` primitives

`Map.prototype.set` on an existing key updates the value in place keeping
the key's insertion position; on a fresh key it appends.  `delete` removes
the entry; `get` returns the value or `undefined`. -/

/-- `map.get(key)`. -/
def mapGet : Store → String → Option (List OrganizedImage)
  | [], _ => none
  | (k, v) :: rest, key => if k = key then some v else mapGet rest key

/-- `map.has(key)`. -/
def mapHas (m : Store) (key : String) : Bool :=
  (mapGet m key).isSome

/-- `map.delete(key)`. -/
def mapDelete : Store → String → Store
  | [], _ => []
  | (k, v) :: rest, key =>
      if k = key then mapDelete rest key else (k, v) :: mapDelete rest key

/-- Replace the value stored at an existing key, keeping its position. -/
def mapReplace : Store → String → List OrganizedImage → Store
  | [], _, _ => []
  | (k, w) :: rest, key, v =>
      if k = key then (key, v) :: mapReplace rest key v
      else (k, w) :: mapReplace rest key v

/-- `map.set(key, v)`. -/
def mapSet (m : Store) (key : String) (v : List OrganizedImage) : Store :=
  if mapHas m key then mapReplace m key v else m ++ [(key, v)]

/-! ## organizeImages (src/index.tsx 160-186)

On an empty file list the handler reports
"Please select some images first." and returns without touching the store;
otherwise it rebuilds the store from scratch, bucketing each file under
`getSkuFromFilename(file.name) || 'Unidentified'` in file order, appending
to the group's array (`existing.push(...)`).  Fresh ids/urls from
`crypto.randomUUID()` / `URL.createObjectURL` are modelled by a counter
`n` incremented per file. -/

/-- The group a file is bucketed under: `sku || 'Unidentified'`. -/
def groupNameOf (f : ImgFile) : String :=
  let sku := extractKey f.name
  if sku = "" then "Unidentified" else sku

/-- The bucketing loop body of `organizeImages`, over the file list with
the fresh-tag counter `n`. -/
def organizeGo : List ImgFile → Nat → Store → Store
  | [], _, acc => acc
  | f :: rest, n, acc =>
      let g := groupNameOf f
      let existing := (mapGet acc g).getD []
      organizeGo rest (n + 1) (mapSet acc g (existing ++ [⟨n, f, n, none⟩]))

/-- The store produced by the bucketing pass of `organizeImages`, starting
from the empty map. -/
def organizeCore (files : List ImgFile) (n : Nat) : Store :=
  organizeGo files n []

/-- `organizeImages` including the empty-input guard: returns the next
store snapshot together with the error message, if any.  On empty input
the previous snapshot survives and an error is set. -/
def organizeImages (files : List ImgFile) (prev : Store) : Store × Option String :=
  if files.length = 0 then (prev, some "Please select some images first.")
  else (organizeCore files 0, none)

/-! ## handleDuplicateImage (src/index.tsx 188-209) -/

/-- `handleDuplicateImage(sku, index)` with `fresh` modelling the
duplicate's `crypto.randomUUID()`.  No-op when the group or index is
missing; otherwise `splice(index + 1, 0, {...original, id: fresh})`. -/
def handleDuplicateImage (s : Store) (sku : String) (index : Nat) (fresh : Nat) : Store :=
  match mapGet s sku with
  | none => s
  | some imageGroup =>
      match imageGroup[index]? with
      | none => s
      | some originalImage =>
          let duplicated : OrganizedImage := { originalImage with id := fresh }
          let newImageGroup :=
            imageGroup.take (index + 1) ++ duplicated :: imageGroup.drop (index + 1)
          mapSet s sku newImageGroup

/-! ## handleDeleteImage (src/index.tsx 211-232) -/

/-- `handleDeleteImage(sku, imageId)`.  Returns the next snapshot together
with the list of preview urls passed to `URL.revokeObjectURL` (the url of
the first item found with the given id, when present).  The group is
removed entirely when its filtered item list is empty. -/
def handleDeleteImage (s : Store) (sku : String) (imageId : Nat) : Store × List Nat :=
  match mapGet s sku with
  | none => (s, [])
  | some imageGroup =>
      let revoked :=
        match imageGroup.find? (fun img => img.id == imageId) with
        | some imageToDelete => [imageToDelete.url]
        | none => []
      let newImageGroup := imageGroup.filter (fun img => img.id != imageId)
      (if newImageGroup.length > 0 then mapSet s sku newImageGroup
       else mapDelete s sku, revoked)

/-! ## handleSkuChange (src/index.tsx 337-358): rename / merge a group -/

/-- `handleSkuChange(oldSku, newSku)`.  Guard: falsy `newSku` (the empty
string) or `oldSku === newSku` leaves the store untouched.  Otherwise the
old entry is removed and its items are either appended to an existing
`newSku` group or installed under `newSku`. -/
def handleSkuChange (s : Store) (oldSku newSku : String) : Store :=
  if newSku = "" ∨ oldSku = newSku then s
  else
    let images := (mapGet s oldSku).getD []
    let m := mapDelete s oldSku
    if mapHas m newSku then
      let existingImages := (mapGet m newSku).getD []
      mapSet m newSku (existingImages ++ images)
    else
      mapSet m newSku images

/-! ## handleGroupDrop (src/index.tsx 445-461): merge two groups

`draggedGroupSku` is component state and may be `null` (modelled by
`none`); the guard `!draggedGroupSku || draggedGroupSku === targetSku`
also fires on the empty string. -/

/-- `handleGroupDrop(targetSku)` with the dragged group state. -/
def handleGroupDrop (s : Store) (draggedGroupSku : Option String) (targetSku : String) : Store :=
  match draggedGroupSku with
  | none => s
  | some src =>
      if src = "" ∨ src = targetSku then s
      else
        let sourceImages := (mapGet s src).getD []
        let targetImages := (mapGet s targetSku).getD []
        mapDelete (mapSet s targetSku (targetImages ++ sourceImages)) src

/-! ## Export naming (src/index.tsx 251-308)

Both download handlers compute, for the item at 0-based `index`:
`effectivePrefix = (image.prefix === undefined ? filenamePrefix
                    : image.prefix).trim()` and
`newFilename = effectivePrefix ? (index+1)-effectivePrefix-file.name
                               : (index+1)-file.name`. -/

/-- JS `.trim()` on Lean strings. -/
def jsTrim (s : String) : String :=
  String.mk (trimChars s.data)

/-- The effective per-item export prefix: the item's override when present
(even when empty), else the global default, both trimmed. -/
def effectivePfx (override : Option String) (globalPfx : String) : String :=
  jsTrim (match override with | some p => p | none => globalPfx)

/-- The archive filename for the item at 1-based position `i`. -/
def exportName (i : Nat) (image : OrganizedImage) (globalPfx : String) : String :=
  let p := effectivePfx image.pfx globalPfx
  if p = "" then toString i ++ "-" ++ image.file.name
  else toString i ++ "-" ++ p ++ "-" ++ image.file.name

/-- The filenames produced for one group, in item order, starting at the
given 0-based index (the handlers' `forEach((image, index) => ...)`). -/
def planGroupAux : Nat → List OrganizedImage → String → List String
  | _, [], _ => []
  | index, image :: rest, globalPfx =>
      exportName (index + 1) image globalPfx :: planGroupAux (index + 1) rest globalPfx

/-- The export plan of `handleDownloadSingleFolder`: the archive filenames
of a group's items in order. -/
def planGroup (globalPfx : String) (imageDatas : List OrganizedImage) : List String :=
  planGroupAux 0 imageDatas globalPfx

/-! ## Store-contents projection (for statements about groups up to fresh
ids and preview urls) -/

/-- The observable content of an item: its payload and its prefix
override, forgetting the generated id and preview url. -/
def itemC (img : OrganizedImage) : ImgFile × Option String :=
  (img.file, img.pfx)

/-- Group contents of a store: keys in order with item payloads. -/
def contents : Store → List (String × List (ImgFile × Option String))
  | [] => []
  | (k, v) :: rest => (k, v.map itemC) :: contents rest

/-- `mapGet` on the contents side. -/
def cGet : List (String × List (ImgFile × Option String)) → String →
    Option (List (ImgFile × Option String))
  | [], _ => none
  | (k, v) :: rest, key => if k = key then some v else cGet rest key

/-- `mapReplace` on the contents side. -/
def cReplace : List (String × List (ImgFile × Option String)) → String →
    List (ImgFile × Option String) → List (String × List (ImgFile × Option String))
  | [], _, _ => []
  | (k, w) :: rest, key, v =>
      if k = key then (key, v) :: cReplace rest key v
      else (k, w) :: cReplace rest key v

/-- `mapSet` on the contents side. -/
def cSet (m : List (String × List (ImgFile × Option String))) (key : String)
    (v : List (ImgFile × Option String)) : List (String × List (ImgFile × Option String)) :=
  if (cGet m key).isSome then cReplace m key v else m ++ [(key, v)]

/-! ## Lemmas about the `Map` primitives -/

theorem mapGet_delete_self (m : Store) (key : String) :
    mapGet (mapDelete m key) key = none := by
  induction m with
  | nil => rfl
  | cons p rest ih =>
      obtain ⟨k, v⟩ := p
      by_cases hk : k = key <;> simp [mapDelete, mapGet, hk, ih]

theorem mapGet_delete_ne (m : Store) (key other : String) (h : key ≠ other) :
    mapGet (mapDelete m key) other = mapGet m other := by
  induction m with
  | nil => rfl
  | cons p rest ih =>
      obtain ⟨k, v⟩ := p
      by_cases hk : k = key
      · subst hk
        simp [mapDelete, mapGet, h, ih]
      · by_cases ho : k = other
        · subst ho
          simp [mapDelete, mapGet, hk]
        · simp [mapDelete, mapGet, hk, ho, ih]

theorem mapGet_replace_self (m : Store) (key : String) (v : List OrganizedImage)
    (h : mapHas m key = true) : mapGet (mapReplace m key v) key = some v := by
  induction m with
  | nil => simp [mapHas, mapGet] at h
  | cons p rest ih =>
      obtain ⟨k, w⟩ := p
      by_cases hk : k = key
      · simp [mapReplace, mapGet, hk]
      · have h' : mapHas rest key = true := by
          simpa [mapHas, mapGet, hk] using h
        simp [mapReplace, mapGet, hk, ih h']

theorem mapGet_append_single_self (m : Store) (key : String) (v : List OrganizedImage)
    (h : mapGet m key = none) : mapGet (m ++ [(key, v)]) key = some v := by
  induction m with
  | nil => simp [mapGet]
  | cons p rest ih =>
      obtain ⟨k, w⟩ := p
      by_cases hk : k = key
      · simp [mapGet, hk] at h
      · have h' : mapGet rest key = none := by
          simpa [mapGet, hk] using h
        simp [mapGet, hk, ih h']

theorem mapGet_set_self (m : Store) (key : String) (v : List OrganizedImage) :
    mapGet (mapSet m key v) key = some v := by
  by_cases hs : mapHas m key = true
  · simp only [mapSet, if_pos hs]
    exact mapGet_replace_self m key v hs
  · simp only [mapSet, if_neg hs]
    have hn : mapGet m key = none := by
      cases hg : mapGet m key with
      | none => rfl
      | some w => exact absurd (by simp [mapHas, hg]) hs
    exact mapGet_append_single_self m key v hn

theorem mapGet_replace_ne (m : Store) (key other : String) (v : List OrganizedImage)
    (h : key ≠ other) : mapGet (mapReplace m key v) other = mapGet m other := by
  induction m with
  | nil => rfl
  | cons p rest ih =>
      obtain ⟨k, w⟩ := p
      by_cases hk : k = key
      · subst hk
        simp [mapReplace, mapGet, h, ih]
      · by_cases ho : k = other
        · subst ho
          simp [mapReplace, mapGet, hk]
        · simp [mapReplace, mapGet, hk, ho, ih]

theorem mapGet_append_single_ne (m : Store) (key other : String) (v : List OrganizedImage)
    (h : key ≠ other) : mapGet (m ++ [(key, v)]) other = mapGet m other := by
  induction m with
  | nil => simp [mapGet, h]
  | cons p rest ih =>
      obtain ⟨k, w⟩ := p
      by_cases ho : k = other <;> simp [mapGet, ho, ih]

theorem mapGet_set_ne (m : Store) (key other : String) (v : List OrganizedImage)
    (h : key ≠ other) : mapGet (mapSet m key v) other = mapGet m other := by
  by_cases hs : mapHas m key = true
  · simp only [mapSet, if_pos hs]
    exact mapGet_replace_ne m key other v h
  · simp only [mapSet, if_neg hs]
    exact mapGet_append_single_ne m key other v h

/-! ## Lemmas about the suffix-stripping loop -/

theorem stripOnce_shortens (name : List Char) :
    stripOnce name = name ∨ (stripOnce name).length < name.length := by
  induction name with
  | nil => exact Or.inl rfl
  | cons c rest ih =>
      by_cases h : sepDigitsMatch (c :: rest) = true
      · right
        simp [stripOnce, h]
      · rcases ih with he | hl
        · left
          simp [stripOnce, h, he]
        · right
          simp only [stripOnce, h, Bool.false_eq_true, if_neg, not_false_iff,
            List.length_cons]
          omega

theorem stripLoopFuel_exits (fuel : Nat) :
    ∀ name : List Char, name.length ≤ fuel →
      stripOnce (stripLoopFuel fuel name) = stripLoopFuel fuel name ∨
        stripLoopFuel fuel name = [] := by
  induction fuel with
  | zero =>
      intro name hlen
      have : name = [] := List.length_eq_zero.mp (Nat.le_zero.mp hlen)
      subst this
      exact Or.inr rfl
  | succ fuel ih =>
      intro name hlen
      by_cases h : stripOnce name = name ∨ stripOnce name = []
      · rcases h with he | hz
        · left
          simp only [stripLoopFuel, he, if_pos (Or.inl rfl)]
          exact he
        · right
          simp [stripLoopFuel, hz]
      · have hne : stripOnce name ≠ name := fun hc => h (Or.inl hc)
        have hlt : (stripOnce name).length < name.length :=
          (stripOnce_shortens name).resolve_left hne
        simp only [stripLoopFuel, if_neg h]
        exact ih (stripOnce name) (by omega)

/-- The do/while loop of `getSkuFromFilename` always reaches its exit
condition: its result is a fixed point of the stripping pass, or empty. -/
theorem stripLoop_exits (name : List Char) :
    stripOnce (stripLoop name) = stripLoop name ∨ stripLoop name = [] :=
  stripLoopFuel_exits name.length name (Nat.le_refl _)

/-! ## Lemmas about the SKU regex search -/

theorem sku653_length {s : List Char} (h : sku653 s = true) : s.length = 16 := by
  simp only [sku653, Bool.and_eq_true, beq_iff_eq] at h
  exact h.1.1.1.1.1

theorem take_length_append_self (l₁ l₂ : List Char) :
    (l₁ ++ l₂).take l₁.length = l₁ := by
  induction l₁ with
  | nil => rfl
  | cons c rest ih => simp [ih]

/-- The regex search finds the code at the leftmost matching position: if
`code` has the 6-5-3 shape and no match starts inside `pre`, the search on
`pre ++ code ++ post` yields `code`. -/
theorem findSku_leftmost (pre code post : List Char)
    (hc : sku653 code = true)
    (hpre : ∀ n, n < pre.length → sku653 ((pre.drop n ++ code ++ post).take 16) = false) :
    findSku (pre ++ code ++ post) = some code := by
  induction pre with
  | nil =>
      have h16 : code.length = 16 := sku653_length hc
      have htake : (code ++ post).take 16 = code := by
        rw [← h16]
        exact take_length_append_self code post
      cases code with
      | nil => simp at h16
      | cons c cs =>
          simp only [List.nil_append, List.cons_append]
          simp only [findSku]
          rw [← List.cons_append, htake, if_pos hc]
  | cons c p ih =>
      have h0 := hpre 0 (by simp)
      simp only [List.drop_zero] at h0
      simp only [List.cons_append] at h0 ⊢
      simp only [findSku]
      rw [if_neg (by rw [h0]; simp)]
      refine ih (fun n hn => ?_)
      have h1 := hpre (n + 1) (by simp only [List.length_cons]; omega)
      simpa using h1

/-! ## Lemmas relating the store to its contents projection -/

theorem cGet_contents (s : Store) (key : String) :
    cGet (contents s) key = (mapGet s key).map (fun l => l.map itemC) := by
  induction s with
  | nil => rfl
  | cons p rest ih =>
      obtain ⟨k, v⟩ := p
      by_cases hk : k = key <;> simp [contents, cGet, mapGet, hk, ih]

theorem mapHas_contents (s : Store) (key : String) :
    mapHas s key = (cGet (contents s) key).isSome := by
  simp only [mapHas, cGet_contents]
  cases mapGet s key <;> simp

theorem contents_replace (s : Store) (key : String) (v : List OrganizedImage) :
    contents (mapReplace s key v) = cReplace (contents s) key (v.map itemC) := by
  induction s with
  | nil => rfl
  | cons p rest ih =>
      obtain ⟨k, w⟩ := p
      by_cases hk : k = key <;> simp [contents, mapReplace, cReplace, hk, ih]

theorem contents_append_single (s : Store) (key : String) (v : List OrganizedImage) :
    contents (s ++ [(key, v)]) = contents s ++ [(key, v.map itemC)] := by
  induction s with
  | nil => rfl
  | cons p rest ih =>
      obtain ⟨k, w⟩ := p
      simp [contents, ih]

theorem contents_set (s : Store) (key : String) (v : List OrganizedImage) :
    contents (mapSet s key v) = cSet (contents s) key (v.map itemC) := by
  by_cases hs : mapHas s key = true
  · rw [mapSet, if_pos hs, cSet,
      if_pos (by rw [← mapHas_contents]; exact hs)]
    exact contents_replace s key v
  · rw [mapSet, if_neg hs, cSet,
      if_neg (by rw [← mapHas_contents]; exact hs)]
    exact contents_append_single s key v

/-- The bucketing pass produces the same group contents whatever the
fresh-tag counters are: the generated ids and urls never influence keys,
order, or payloads. -/
theorem organizeGo_contents (files : List ImgFile) :
    ∀ (n m : Nat) (acc₁ acc₂ : Store), contents acc₁ = contents acc₂ →
      contents (organizeGo files n acc₁) = contents (organizeGo files m acc₂) := by
  induction files with
  | nil => intro n m acc₁ acc₂ h; exact h
  | cons f rest ih =>
      intro n m acc₁ acc₂ h
      simp only [organizeGo]
      apply ih
      rw [contents_set, contents_set]
      have hget : (mapGet acc₁ (groupNameOf f)).map (fun l => l.map itemC)
          = (mapGet acc₂ (groupNameOf f)).map (fun l => l.map itemC) := by
        rw [← cGet_contents, ← cGet_contents, h]
      have hE : ((mapGet acc₁ (groupNameOf f)).getD []).map itemC
          = ((mapGet acc₂ (groupNameOf f)).getD []).map itemC := by
        cases h1 : mapGet acc₁ (groupNameOf f) <;>
          cases h2 : mapGet acc₂ (groupNameOf f) <;>
            rw [h1, h2] at hget <;> simp_all
      rw [h]
      congr 1
      simp [hE, itemC]

/-! ## Lemma for the export plan -/

theorem planGroupAux_get (g : String) (items : List OrganizedImage) :
    ∀ (j k : Nat), (planGroupAux j items g)[k]?
      = (items[k]?).map (fun image => exportName (j + k + 1) image g) := by
  induction items with
  | nil => intro j k; simp [planGroupAux]
  | cons img rest ih =>
      intro j k
      cases k with
      | zero => simp [planGroupAux]
      | succ k =>
          simp only [planGroupAux, List.getElem?_cons_succ]
          rw [ih (j + 1) k]
          have harith : j + 1 + k + 1 = j + (k + 1) + 1 := by omega
          rw [harith]

/-! ## Lemma for filenames without a dot -/

theorem dropExtRev_no_dot (s : List Char) (h : '.' ∉ s) : dropExtRev s = [] := by
  induction s with
  | nil => rfl
  | cons c rest ih =>
      simp only [List.mem_cons, not_or] at h
      have hc : ¬ c = '.' := fun hcc => h.1 hcc.symm
      simp [dropExtRev, hc, ih h.2]

/-! ## Sample concrete items used by closed theorems -/

def imgA : OrganizedImage := ⟨0, ⟨"a.jpg", 0⟩, 0, none⟩

def imgB : OrganizedImage := ⟨1, ⟨"b.jpg", 1⟩, 1, none⟩

/-! ## Claim theorems -/

/-- Claim C1 (code_bug evidence): the mutation handlers are not benign
no-ops on missing group keys.  Concretely, `handleGroupDrop` invoked while
the target group "B" is absent from the store (a race with a completed
deletion) does not return the unchanged snapshot: it moves group "A"'s
items under the key "B" and deletes "A", i.e. it renames the group. -/
theorem c1_groupDrop_missing_target_changes_store :
    mapGet [("A", [imgA])] "B" = none ∧
    handleGroupDrop [("A", [imgA])] (some "A") "B" = [("B", [imgA])] ∧
    handleGroupDrop [("A", [imgA])] (some "A") "B" ≠ [("A", [imgA])] := by
  decide

/-- Claim C2 (code_bug evidence): deleting a group's last item does remove
the group key (first conjunct), but the empty-group invariant is not
preserved by every operation: `handleSkuChange` invoked with a missing old
key "B" (a race with a completed deletion) installs the fresh key "C" with
an empty item list, so a key mapping to `[]` becomes present in the
store. -/
theorem c2_skuChange_creates_empty_group :
    (handleDeleteImage [("A", [imgA])] "A" 0).1 = [] ∧
    mapGet [("A", [imgA])] "B" = none ∧
    handleSkuChange [("A", [imgA])] "B" "C" = [("A", [imgA]), ("C", [])] ∧
    mapGet (handleSkuChange [("A", [imgA])] "B" "C") "C" = some [] := by
  decide

/-- Claim C3 (counterexample): `organizeImages` on an empty input list does
not yield an empty store and is an error: it returns the previous snapshot
unchanged together with the error message. -/
theorem c3_organize_empty_counterexample :
    organizeImages [] [("G", [imgA])]
      = ([("G", [imgA])], some "Please select some images first.") ∧
    ([("G", [imgA])] : Store) ≠ [] := by
  decide

/-- Claim C3 (amended): on empty input `organizeImages` reports the error
and leaves the store unchanged; on any fixed input list the bucketing pass
is idempotent in group contents — two runs (with different fresh id/url
supplies) produce groups with equal keys, order, and item payloads. -/
theorem c3_organize_amended :
    (∀ prev : Store,
        organizeImages [] prev = (prev, some "Please select some images first.")) ∧
    (∀ (files : List ImgFile) (n m : Nat),
        contents (organizeCore files n) = contents (organizeCore files m)) :=
  ⟨fun _ => rfl, fun files n m => organizeGo_contents files n m [] [] rfl⟩

/-- Claim C4 (counterexample): `extractKey` does not return an arbitrary
contained 6-5-3 substring regardless of surrounding characters — this
filename contains the 6-5-3 substring "123456-78901-234", yet `extractKey`
returns the earlier match instead. -/
theorem c4_counterexample :
    ("111111-22222-333 " ++ "123456-78901-234" ++ ".jpg" : String)
      = "111111-22222-333 123456-78901-234.jpg" ∧
    sku653 "123456-78901-234".data = true ∧
    extractKey "111111-22222-333 123456-78901-234.jpg" = "111111-22222-333" ∧
    extractKey "111111-22222-333 123456-78901-234.jpg" ≠ "123456-78901-234" := by
  decide

/-- Claim C4 (amended): for every filename containing a substring of
exactly 6 digits, hyphen, 5 digits, hyphen, 3 digits, `extractKey` returns
exactly the leftmost such match: if no 6-5-3 match starts inside the
preceding characters `pre`, the result is that substring, regardless of
the surrounding characters. -/
theorem c4_extract_leftmost_sku (pre code post : List Char)
    (hc : sku653 code = true)
    (hpre : ∀ n, n < pre.length →
      sku653 ((pre.drop n ++ code ++ post).take 16) = false) :
    getSkuFromFilename (pre ++ code ++ post) = code := by
  rw [getSkuFromFilename, findSku_leftmost pre code post hc hpre]

theorem c4_extract_leftmost_sku_witness :
    getSkuFromFilename ("IMG ".data ++ "123456-78901-234".data ++ ".jpg".data)
      = "123456-78901-234".data :=
  c4_extract_leftmost_sku "IMG ".data "123456-78901-234".data ".jpg".data
    (by decide) (by decide)

/-- Claim C5: the extension / parenthesized-suffix / numeric-suffix
stripping fallback of `extractKey` on the spec's examples:
"product (2).jpg" and "product.jpg" both map to "product",
"img-001-2.png" maps to "img" (two numeric suffixes stripped), and
"widget-1-2.png" maps to "widget". -/
theorem c5_fallback_examples :
    extractKey "product (2).jpg" = "product" ∧
    extractKey "product.jpg" = "product" ∧
    extractKey "img-001-2.png" = "img" ∧
    extractKey "widget-1-2.png" = "widget" := by
  decide

/-- Claim C6: `extractKey` is total.  Each pass of the suffix-stripping
loop either leaves the string unchanged (and the loop exits) or strictly
shortens it, the loop always reaches its exit condition (its result is a
fixed point of the pass or the empty string), and `extractKey` returns a
value on names consisting only of separators and digits. -/
theorem c6_strip_loop_terminates :
    (∀ name : List Char,
        stripOnce name = name ∨ (stripOnce name).length < name.length) ∧
    (∀ name : List Char,
        stripOnce (stripLoop name) = stripLoop name ∨ stripLoop name = []) ∧
    extractKey "1-2-3.png" = "1" ∧ extractKey "_-_.jpg" = "_-_" :=
  ⟨stripOnce_shortens, stripLoop_exits, by decide, by decide⟩

/-- Claim C7: `handleSkuChange` (rename-or-merge).  When the target key
`b` pre-exists, the resulting group `b` holds `b`'s original items
followed by `a`'s original items and key `a` is absent; when `b` is fresh,
the group is renamed (key `b` holds `a`'s items, key `a` is absent); when
`b` equals `a` or is empty, the store is returned unchanged. -/
theorem c7_rename_or_merge :
    (∀ (s : Store) (a b : String) (xs ys : List OrganizedImage),
        b ≠ "" → a ≠ b → mapGet s a = some xs → mapGet s b = some ys →
        mapGet (handleSkuChange s a b) b = some (ys ++ xs) ∧
        mapGet (handleSkuChange s a b) a = none) ∧
    (∀ (s : Store) (a b : String) (xs : List OrganizedImage),
        b ≠ "" → a ≠ b → mapGet s a = some xs → mapGet s b = none →
        mapGet (handleSkuChange s a b) b = some xs ∧
        mapGet (handleSkuChange s a b) a = none) ∧
    (∀ (s : Store) (a : String),
        handleSkuChange s a a = s ∧ handleSkuChange s a "" = s) := by
  refine ⟨?_, ?_, ?_⟩
  · intro s a b xs ys hb hab ha hbs
    have hguard : ¬ (b = "" ∨ a = b) := fun hor => hor.elim hb hab
    have hmb : mapGet (mapDelete s a) b = some ys := by
      rw [mapGet_delete_ne s a b hab]
      exact hbs
    have hres : handleSkuChange s a b = mapSet (mapDelete s a) b (ys ++ xs) := by
      simp [handleSkuChange, hguard, ha, mapHas, hmb]
    rw [hres]
    constructor
    · exact mapGet_set_self _ b _
    · rw [mapGet_set_ne _ b a _ (fun hc => hab hc.symm)]
      exact mapGet_delete_self s a
  · intro s a b xs hb hab ha hbs
    have hguard : ¬ (b = "" ∨ a = b) := fun hor => hor.elim hb hab
    have hmb : mapGet (mapDelete s a) b = none := by
      rw [mapGet_delete_ne s a b hab]
      exact hbs
    have hres : handleSkuChange s a b = mapSet (mapDelete s a) b xs := by
      simp [handleSkuChange, hguard, ha, mapHas, hmb]
    rw [hres]
    constructor
    · exact mapGet_set_self _ b _
    · rw [mapGet_set_ne _ b a _ (fun hc => hab hc.symm)]
      exact mapGet_delete_self s a
  · intro s a
    constructor <;> simp [handleSkuChange]

theorem c7_rename_or_merge_witness :
    mapGet (handleSkuChange [("a", [imgA]), ("b", [imgB])] "a" "b") "b"
      = some ([imgB] ++ [imgA]) ∧
    mapGet (handleSkuChange [("a", [imgA]), ("b", [imgB])] "a" "b") "a" = none :=
  c7_rename_or_merge.1 [("a", [imgA]), ("b", [imgB])] "a" "b" [imgA] [imgB]
    (by decide) (by decide) (by decide) (by decide)

/-- Claim C8: export naming.  The archive filename of the item at 0-based
index `k` (1-based position `k + 1`) uses the item's override trimmed when
present (including the empty string), else the trimmed global default, and
is "<i>-<prefix>-<name>" when the effective prefix is non-empty and
"<i>-<name>" otherwise; in particular an explicit empty override always
suppresses the global prefix, as the "eci" example shows. -/
theorem c8_export_naming :
    (∀ (globalPfx : String) (imageDatas : List OrganizedImage) (k : Nat),
        (planGroup globalPfx imageDatas)[k]?
          = (imageDatas[k]?).map (fun image =>
              let p := jsTrim (match image.pfx with
                | some o => o
                | none => globalPfx)
              if p = "" then toString (k + 1) ++ "-" ++ image.file.name
              else toString (k + 1) ++ "-" ++ p ++ "-" ++ image.file.name)) ∧
    (∀ (globalPfx : String) (idv : Nat) (f : ImgFile) (u i : Nat),
        exportName i ⟨idv, f, u, some ""⟩ globalPfx = toString i ++ "-" ++ f.name) ∧
    planGroup "eci" [⟨5, ⟨"f.jpg", 9⟩, 5, some ""⟩] = ["1-f.jpg"] := by
  refine ⟨?_, ?_, by decide⟩
  · intro globalPfx imageDatas k
    rw [planGroup, planGroupAux_get globalPfx imageDatas 0 k]
    simp only [Nat.zero_add]
    rfl
  · intro globalPfx idv f u i
    rfl

/-- Claim C9: a filename with no '.' and no 6-5-3 code extracts to the
empty key (its extension-split is empty), so `organizeImages` buckets the
file under the fallback group "Unidentified" even though the filename is a
non-empty ordinary name. -/
theorem c9_no_dot_unidentified (fname : String) (d n : Nat)
    (hdot : '.' ∉ fname.data) (hsku : findSku fname.data = none) :
    extractKey fname = "" ∧
    organizeCore [⟨fname, d⟩] n
      = [("Unidentified", [⟨n, ⟨fname, d⟩, n, none⟩])] := by
  have hbase : dropExt fname.data = [] := by
    have hrev : '.' ∉ fname.data.reverse := by simpa using hdot
    simp [dropExt, dropExtRev_no_dot _ hrev]
  have hkey : extractKey fname = "" := by
    unfold extractKey getSkuFromFilename
    rw [hsku, hbase]
    rfl
  refine ⟨hkey, ?_⟩
  simp [organizeCore, organizeGo, groupNameOf, hkey, mapSet, mapHas, mapGet]

theorem c9_no_dot_unidentified_witness :
    extractKey "holidayphoto" = "" ∧
    organizeCore [⟨"holidayphoto", 3⟩] 5
      = [("Unidentified", [⟨5, ⟨"holidayphoto", 3⟩, 5, none⟩])] :=
  c9_no_dot_unidentified "holidayphoto" 3 5 (by decide) (by decide)

/-- Claim C10: `handleDuplicateImage` inserts, immediately after the
original, a copy that differs only in its id — same payload reference and
same preview url string (first conjunct).  `handleDeleteImage` revokes the
url of the found item unconditionally (second conjunct).  Hence after
duplicating an item and deleting either the original or the copy, the
revoked url equals the url still held by the surviving item (third
conjunct). -/
theorem c10_duplicate_delete_revoked_url :
    (∀ (s : Store) (sku : String) (i fresh : Nat)
        (grp : List OrganizedImage) (x : OrganizedImage),
        mapGet s sku = some grp → grp[i]? = some x →
        mapGet (handleDuplicateImage s sku i fresh) sku
          = some (grp.take (i + 1) ++ { x with id := fresh } :: grp.drop (i + 1))) ∧
    (∀ (s : Store) (sku : String) (imageId : Nat)
        (grp : List OrganizedImage) (x : OrganizedImage),
        mapGet s sku = some grp →
        grp.find? (fun img => img.id == imageId) = some x →
        (handleDeleteImage s sku imageId).2 = [x.url]) ∧
    (∀ (sku : String) (x : OrganizedImage) (fresh : Nat), fresh ≠ x.id →
        handleDeleteImage (handleDuplicateImage [(sku, [x])] sku 0 fresh) sku x.id
          = ([(sku, [{ x with id := fresh }])], [x.url]) ∧
        handleDeleteImage (handleDuplicateImage [(sku, [x])] sku 0 fresh) sku fresh
          = ([(sku, [x])], [x.url])) := by
  refine ⟨?_, ?_, ?_⟩
  · intro s sku i fresh grp x hget hidx
    simp only [handleDuplicateImage, hget, hidx]
    exact mapGet_set_self s sku _
  · intro s sku imageId grp x hget hfind
    simp only [handleDeleteImage, hget, hfind]
  · intro sku x fresh hfx
    have hdup : handleDuplicateImage [(sku, [x])] sku 0 fresh
        = [(sku, [x, { x with id := fresh }])] := by
      simp [handleDuplicateImage, mapGet, mapSet, mapHas, mapReplace]
    rw [hdup]
    have h1 : (fresh != x.id) = true := bne_iff_ne.mpr hfx
    have h2 : (x.id != fresh) = true := bne_iff_ne.mpr (Ne.symm hfx)
    have h3 : (x.id == fresh) = false := by
      simp [Ne.symm hfx]
    constructor
    · simp [handleDeleteImage, mapGet, mapSet, mapHas, mapReplace, mapDelete,
        List.find?, List.filter, h1, h2, h3]
    · simp [handleDeleteImage, mapGet, mapSet, mapHas, mapReplace, mapDelete,
        List.find?, List.filter, h1, h2, h3]

theorem c10_duplicate_delete_revoked_url_witness :
    mapGet (handleDuplicateImage [("A", [imgA])] "A" 0 7) "A"
      = some (([imgA].take 1) ++ { imgA with id := 7 } :: ([imgA].drop 1)) :=
  c10_duplicate_delete_revoked_url.1 [("A", [imgA])] "A" 0 7 [imgA] imgA
    (by decide) (by decide)

end RivaChoice
